import Mathlib

/-!
Verification of the duration-accounting and text-chunking core of the
video narration pipeline (TTS/engine_wrapper.py).

The embedding models:
* the chunking regex of split_post together with the finditer scan and
  the per-piece strip (splitText and its helpers);
* the drop guard and visible chunk numbering of the split_post loop
  (dropPiece, visibleNumbers, synthesizedChunks);
* the mutable accounting state of TTSEngine (length, last_clip_length,
  racked_up_split_length) and the state transitions of call_tts,
  split_post and run (TTSState, call_tts, split_post_acc, runComments,
  runModel).

Durations are modelled as rationals.  The external speech synthesizer and
the duration probe are modelled by their observable outcome: an
Option value where none means the produced artifact could not be opened
or probed (the except branch of call_tts).  Text processing
(process_text, which delegates to sanitization and an optional external
translation service) is an arbitrary parameter procText, so every
theorem quantifying over it holds for the real processing function.
-/

/-- Whitespace characters of python str.strip and str.isspace
(ASCII subset; the model restricts attention to ASCII whitespace). -/
def isPySpace (c : Char) : Bool :=
  c == ' ' || c == '\t' || c == '\n' || c == '\r' ||
    c == Char.ofNat 11 || c == Char.ofNat 12

/-- python str.strip: remove leading and trailing whitespace. -/
def pyStrip (l : List Char) : List Char :=
  ((l.dropWhile isPySpace).reverse.dropWhile isPySpace).reverse

/-- python str.isspace: nonempty and every character is whitespace. -/
def pyIsSpace (l : List Char) : Bool :=
  !l.isEmpty && l.all isPySpace

/-- Terminator group of the split regex: an alternation of a literal
period and of an arbitrary non-newline character at end of string (the
dollar also accepts the position just before one trailing newline).
True when the group can match exactly the character at index q. -/
def termAt (text : List Char) (q : Nat) : Bool :=
  match text.get? q with
  | some c =>
      c == '.' ||
        (c != '\n' &&
          (q + 1 == text.length ||
            (q + 2 == text.length && text.get? (q + 1) == some '\n')))
  | none => false

/-- Number of space characters the leading space quantifier of the split
regex can consume at position p of the text. -/
def spaceRun (text : List Char) (p : Nat) : Nat :=
  ((text.drop p).takeWhile (fun c => c == ' ')).length

/-- Backtracking of the regex engine at one start position: the total
number u of characters consumed before the terminator group, by the
space quantifier together with the bounded wildcard group, is tried
from its maximum downwards, and the first u for which the terminator
group matches at index p + u wins. -/
def findUAux (text : List Char) (p : Nat) : Nat → Option Nat
  | 0 => if termAt text p then some 0 else none
  | u + 1 =>
    if termAt text (p + (u + 1)) then some (u + 1) else findUAux text p u

/-- Extent search of the split regex at start position p for a bounded
wildcard group of at most n characters: the space quantifier can supply
at most spaceRun text p characters and the wildcard group at most n, so
the candidate extents are spaceRun text p + n down to 0. -/
def findU (n : Nat) (text : List Char) (p : Nat) : Option Nat :=
  findUAux text p (spaceRun text p + n)

/-- Scan of re.finditer over the text: at each position the regex is
attempted; a failed attempt moves the start one character forward, a
successful match of extent u + 1 emits the stripped matched text and
resumes at the end of the match.  The fuel argument only bounds the
number of remaining steps: every step consumes at least one position,
so text.length steps always suffice and the fuel never runs out when
the scan starts with fuel text.length at position 0. -/
def splitTextGo (n : Nat) (text : List Char) : Nat → Nat → List (List Char)
  | 0, _ => []
  | fuel + 1, p =>
    if p < text.length then
      match findU n text p with
      | some u =>
          pyStrip ((text.drop p).take (u + 1)) ::
            splitTextGo n text fuel (p + u + 1)
      | none => splitTextGo n text fuel (p + 1)
    else []

/-- split_text of split_post: the stripped regex matches, in order, for
a wildcard bound of n characters (max_chars of the engine module). -/
def splitText (n : Nat) (text : List Char) : List (List Char) :=
  splitTextGo n text text.length 0

/-- Drop guard of the split_post loop applied to one raw piece: the
piece is skipped when its processed text is empty or whitespace only.
procText stands for process_text. -/
def dropPiece (procText : List Char → List Char) (piece : List Char) : Bool :=
  (procText piece).isEmpty || pyIsSpace (procText piece)

/-- Visible chunk sequence numbers emitted by the split_post loop: idy
counts raw pieces, offset counts dropped pieces so far, and a surviving
piece is numbered idy - offset. -/
def visibleNumbers (drop : List Char → Bool) :
    List (List Char) → Nat → Nat → List Nat
  | [], _, _ => []
  | piece :: rest, idy, offset =>
    if drop piece then visibleNumbers drop rest (idy + 1) (offset + 1)
    else (idy - offset) :: visibleNumbers drop rest (idy + 1) offset

/-- Processed texts that the split_post loop passes to the synthesizer:
each piece is processed, and only pieces that survive the drop guard are
synthesized, in order. -/
def synthesizedChunks (procText : List Char → List Char) (n : Nat)
    (text : List Char) : List (List Char) :=
  ((splitText n text).map procText).filter (fun s => !(s.isEmpty || pyIsSpace s))

/-- Modelled from the spec, for comparison with the source behavior: the
first chunk the spec describes, produced by accumulating characters up
to the limit and then extending to the first sentence terminator at or
after the running length limit, so that a chunk may exceed the limit by
the distance to the next terminator.  The auxiliary function searches
for the first period at an index at or beyond the limit. -/
def firstTermFromAux (text : List Char) : Nat → Nat → Option Nat
  | 0, _ => none
  | fuel + 1, j =>
    if text.get? j == some '.' then some j
    else firstTermFromAux text fuel (j + 1)

/-- Modelled from the spec: the favored first chunk under the reading of
the spec, running from the start of the text through the first
terminator at an index at or beyond n - 1 (the last index inside the
character limit). -/
def specFavoredFirstChunk (n : Nat) (text : List Char) : Option (List Char) :=
  (firstTermFromAux text text.length (n - 1)).map (fun j => text.take (j + 1))

/-- Mutable duration accounting state of TTSEngine. -/
structure TTSState where
  length : ℚ
  last_clip_length : ℚ
  racked_up_split_length : ℚ
deriving DecidableEq, Repr

/-- call_tts: the synthesizer runs, then the produced artifact is opened
and probed for its duration; the probe argument is the outcome, none
standing for the except branch.  On success the duration is added to
length, stored into last_clip_length and, when split is set, added to
racked_up_split_length, and True is returned; on failure the state is
returned unchanged together with False. -/
def call_tts (st : TTSState) (probe : Option ℚ) (split : Bool) :
    TTSState × Bool :=
  match probe with
  | none => (st, false)
  | some d =>
      (⟨st.length + d, d,
        if split then st.racked_up_split_length + d
        else st.racked_up_split_length⟩, true)

/-- Accounting effect of the synthesis loop of split_post, given the
duration probe outcomes of the chunks that survive the drop guard, in
order.  When a chunk fails, racked_up_split_length is subtracted from
length and the procedure returns early; the failure branch leaves
racked_up_split_length itself untouched.  After a fully successful loop
racked_up_split_length is reset to 0 before concatenation. -/
def split_post_acc (st : TTSState) : List (Option ℚ) → TTSState × Bool
  | [] => (⟨st.length, st.last_clip_length, 0⟩, true)
  | probe :: rest =>
    match call_tts st probe true with
    | (st1, true) => split_post_acc st1 rest
    | (st1, false) =>
        (⟨st1.length - st1.racked_up_split_length,
          st1.last_clip_length, st1.racked_up_split_length⟩, false)

/-- A comment as the run loop sees it: synthesized directly through one
call_tts when its body fits within max_chars, or as a chunked unit
through split_post otherwise.  The Option values are the duration probe
outcomes of the external synthesizer for the corresponding artifacts. -/
inductive CommentSynth where
  | direct (probe : Option ℚ)
  | chunked (chunks : List (Option ℚ))
deriving DecidableEq, Repr

/-- Effect of one comment iteration body on the accounting state; the
boolean result of call_tts is ignored by run for direct comments. -/
def processComment (st : TTSState) : CommentSynth → TTSState
  | .direct probe => (call_tts st probe false).1
  | .chunked chunks => (split_post_acc st chunks).1

/-- Comment loop of run: at the top of each iteration the accumulated
length is compared with max_length; when strictly greater,
last_clip_length is subtracted from length, the loop index is
decremented and the loop breaks.  The argument i is the enumerate index
of the head comment; the returned integer is the final value of idx. -/
def runComments (maxLength : ℚ) :
    TTSState → List CommentSynth → ℤ → TTSState × ℤ
  | st, [], i => (st, i - 1)
  | st, c :: rest, i =>
    if maxLength < st.length then
      (⟨st.length - st.last_clip_length, st.last_clip_length,
        st.racked_up_split_length⟩, i - 1)
    else
      runComments maxLength (processComment st c) rest (i + 1)

/-- run: the title is synthesized first and the result of its call_tts
is ignored, then the optional post body when story mode is enabled and
the processed body text is nonempty (the outer Option), then the
comment loop runs starting from index 0.  With an empty comment list
the python idx stays None, modelled as none; otherwise the loop always
assigns idx and the returned index is its final value. -/
def runModel (maxLength : ℚ) (title : Option ℚ) (body : Option (Option ℚ))
    (comments : List CommentSynth) : TTSState × Option ℤ :=
  let st0 : TTSState := ⟨0, 0, 0⟩
  let st1 := (call_tts st0 title false).1
  let st2 := match body with
    | none => st1
    | some probe => (call_tts st1 probe false).1
  if comments.isEmpty then (st2, none)
  else
    let r := runComments maxLength st2 comments 0
    (r.1, some r.2)

/-- Comments that are all synthesized directly and whose duration probes
all succeed, with the given durations. -/
def directs (ds : List ℚ) : List CommentSynth :=
  ds.map (fun d => CommentSynth.direct (some d))

/-- Claim C10: when reading the produced artifact fails, call_tts returns
False and leaves length, last_clip_length and racked_up_split_length all
unchanged; a failed unit contributes exactly zero to every accumulator,
since the successful branch is the only one that adds the probed
duration. -/
theorem callTTSFailureAtomic (st : TTSState) (split : Bool) :
    call_tts st none split = (st, false) := rfl

/-- Claim C1, counterexample: on the worked example of the spec, with a
title of 2 seconds, no body, three direct comments of 3 seconds each and
a budget of 7 seconds, run returns final total 5 together with index 1,
not index 0 as the claim states: at the eviction iteration the loop
index 2 is decremented once, yielding the index of the evicted comment
rather than the index of the last accepted one. -/
theorem endToEndIndexCex :
    runModel 7 (some 2) none
        [.direct (some 3), .direct (some 3), .direct (some 3)]
      = (⟨5, 3, 0⟩, some 1)
    ∧ some (1 : ℤ) ≠ some (0 : ℤ) := by
  constructor
  · norm_num [runModel, runComments, processComment, call_tts]
  · decide

/-- Claim C1 (amended): on the worked example the run accepts the title
(total 2), comment 0 (total 5) and comment 1 (total 8), detects the
exceeded budget on entering the iteration of comment 2, rolls back the
contribution of comment 1, and returns final total 5 together with the
returned index value 1, the index of the evicted comment; the downstream
consumer uses the returned index as an exclusive bound, so the last
comment presented in the final video is comment 0. -/
theorem endToEndExample :
    runModel 7 (some 2) none
        [.direct (some 3), .direct (some 3), .direct (some 3)]
      = (⟨5, 3, 0⟩, some 1) := by
  norm_num [runModel, runComments, processComment, call_tts]

/-- Claim C2, counterexample: when the prefix sum first exceeds the
budget at the final comment of the thread, no later iteration performs
the budget check, so the final comment is never rolled back: with title
2, comments of durations 3 and 3 and budget 7, the first excess is at
comment index 1 (total 8), yet run returns total 8, not the 5 the claim
requires after excluding comment 1. -/
theorem terminationFinalCommentCex :
    runModel 7 (some 2) none [.direct (some 3), .direct (some 3)]
      = (⟨8, 3, 0⟩, some 1)
    ∧ (8 : ℚ) ≠ 5 := by
  constructor
  · norm_num [runModel, runComments, processComment, call_tts]
  · norm_num

/-- Claim C3: the accounting corruption by a stale speculative total.
After an earlier chunked comment fails (chunk durations 1 then a
failure), racked_up_split_length is left at 1; a later chunked comment X
failing on its second chunk (durations 2, failure, 4) then subtracts the
stale 1 on top of its own 2, leaving length at -1 although the length
before comment X was attempted was 0, contradicting the claim that the
rollback restores the pre-attempt value regardless of an earlier failed
chunked comment. -/
theorem splitFailureIsolationBug :
    (split_post_acc ⟨0, 0, 0⟩ [some 1, none]).1 = ⟨0, 1, 1⟩
    ∧ (split_post_acc ⟨0, 1, 1⟩ [some 2, none, some 4]).1.length = -1
    ∧ (-1 : ℚ) ≠ 0 := by
  refine ⟨?_, ?_, by norm_num⟩
  · norm_num [split_post_acc, call_tts]
  · norm_num [split_post_acc, call_tts]

/-- Claim C4: the failure branch of split_post subtracts
racked_up_split_length from length but does not reset it to 0, so after
a failed chunked comment whose first chunk lasted 1 second the
speculative total is still 1 when the next multi-chunk unit begins,
contradicting the claimed reset invariant. -/
theorem speculativeResetBug :
    (split_post_acc ⟨0, 0, 0⟩ [some 1, none]).1.racked_up_split_length = 1
    ∧ (1 : ℚ) ≠ 0 := by
  refine ⟨?_, by norm_num⟩
  norm_num [split_post_acc, call_tts]

/-- Claim C5, counterexample: with title 1, two direct comments of 4
seconds each and budget 4, run evicts comment 0 at the iteration of
comment 1 and returns total 1 with index 0; under the claim the total
would have to equal the sum over the title and comments 0 up to the
returned index, that is 1 + 4 = 5, so the claimed invariant fails on
the eviction path. -/
theorem manifestTotalCex :
    runModel 4 (some 1) none [.direct (some 4), .direct (some 4)]
      = (⟨1, 4, 0⟩, some 0)
    ∧ (1 : ℚ) ≠ 1 + 4 := by
  constructor
  · norm_num [runModel, runComments, processComment, call_tts]
  · norm_num

/-- Claim C6: after a fully successful chunked comment with chunk
durations 1 and 2, the accounting state holds last_clip_length = 2, the
duration of the final chunk alone, not the committed sum 3; a subsequent
budget eviction therefore subtracts only the final chunk of the comment
instead of its whole contribution. -/
theorem commitLastAcceptedBug :
    split_post_acc ⟨0, 0, 0⟩ [some 1, some 2] = (⟨3, 2, 0⟩, true)
    ∧ (2 : ℚ) ≠ 1 + 2 := by
  constructor
  · norm_num [split_post_acc, call_tts]
  · norm_num

lemma lengthDropWhileLe (p : Char → Bool) (l : List Char) :
    (l.dropWhile p).length ≤ l.length := by
  induction l with
  | nil => simp [List.dropWhile]
  | cons x xs ih =>
    by_cases h : p x = true
    · simp [List.dropWhile, h]; omega
    · simp [List.dropWhile, h]

lemma findUAux_bound {text : List Char} {p : Nat} :
    ∀ {b u : Nat}, findUAux text p b = some u →
      u ≤ b ∧ termAt text (p + u) = true := by
  intro b
  induction b with
  | zero =>
    intro u h
    by_cases ht : termAt text p = true
    · simp [findUAux, ht] at h
      subst h
      simpa using ht
    · simp [findUAux, ht] at h
  | succ b ih =>
    intro u h
    by_cases ht : termAt text (p + (b + 1)) = true
    · simp [findUAux, ht] at h
      subst h
      exact ⟨le_refl _, ht⟩
    · simp [findUAux, ht] at h
      obtain ⟨hu, hterm⟩ := ih h
      exact ⟨Nat.le_succ_of_le hu, hterm⟩

lemma termAt_lt_length {text : List Char} {q : Nat}
    (h : termAt text q = true) : q < text.length := by
  by_contra hq
  have hn : text[q]? = none := List.getElem?_eq_none (Nat.le_of_not_lt hq)
  simp [termAt, List.get?_eq_getElem?, hn] at h

lemma mem_take_of_le_takeWhile {q : Char → Bool} :
    ∀ (l : List Char) (s : Nat), s ≤ (l.takeWhile q).length →
      ∀ x ∈ l.take s, q x = true := by
  intro l
  induction l with
  | nil => intro s hs x hx; simp at hx
  | cons y ys ih =>
    intro s hs x hx
    by_cases hy : q y = true
    · match s with
      | 0 => simp at hx
      | s + 1 =>
        simp [List.takeWhile, hy] at hs
        simp [List.take] at hx
        rcases hx with hx | hx
        · subst hx; exact hy
        · exact ih s hs x hx
    · simp [List.takeWhile, hy] at hs
      subst hs
      simp at hx

lemma length_dropWhile_of_space_take :
    ∀ (l : List Char) (s : Nat), (∀ x ∈ l.take s, isPySpace x = true) →
      (l.dropWhile isPySpace).length ≤ l.length - s := by
  intro l
  induction l with
  | nil => intro s h; simp [List.dropWhile]
  | cons y ys ih =>
    intro s h
    match s with
    | 0 =>
      simpa using lengthDropWhileLe isPySpace (y :: ys)
    | s + 1 =>
      have hy : isPySpace y = true := h y (by simp [List.take])
      have hrest : ∀ x ∈ ys.take s, isPySpace x = true := by
        intro x hx
        exact h x (by simp [List.take]; right; exact hx)
      simp [List.dropWhile, hy]
      have := ih s hrest
      simp [List.length_cons]
      omega

lemma pyStrip_length_le (l : List Char) :
    (pyStrip l).length ≤ (l.dropWhile isPySpace).length := by
  unfold pyStrip
  rw [List.length_reverse]
  calc ((l.dropWhile isPySpace).reverse.dropWhile isPySpace).length
      ≤ (l.dropWhile isPySpace).reverse.length := lengthDropWhileLe _ _
    _ = (l.dropWhile isPySpace).length := List.length_reverse _

lemma chunk_length_of_findU {n : Nat} {text : List Char} {p u : Nat}
    (h : findU n text p = some u) :
    (pyStrip ((text.drop p).take (u + 1))).length ≤ n + 1 := by
  obtain ⟨hub, hterm⟩ := findUAux_bound h
  have hlt : p + u < text.length := termAt_lt_length hterm
  set S := spaceRun text p with hS
  set s := min S u with hs
  set slice := (text.drop p).take (u + 1) with hslice
  have hslicelen : slice.length = u + 1 := by
    rw [hslice, List.length_take, List.length_drop]
    omega
  have hspaces : ∀ x ∈ slice.take s, isPySpace x = true := by
    intro x hx
    have h1 : slice.take s = (text.drop p).take s := by
      rw [hslice, List.take_take]
      congr 1
      omega
    rw [h1] at hx
    have hsx : (fun c => c == ' ') x = true := by
      apply mem_take_of_le_takeWhile (text.drop p) s _ x hx
      have hsS : s ≤ S := by omega
      rw [hS] at hsS
      simpa [spaceRun] using hsS
    have : x = ' ' := by simpa using hsx
    subst this
    rfl
  have hdw : (slice.dropWhile isPySpace).length ≤ slice.length - s :=
    length_dropWhile_of_space_take slice s hspaces
  have := pyStrip_length_le slice
  omega

lemma splitTextGo_length_le {n : Nat} {text : List Char} :
    ∀ (fuel p : Nat) (c : List Char),
      c ∈ splitTextGo n text fuel p → c.length ≤ n + 1 := by
  intro fuel
  induction fuel with
  | zero => intro p c hc; simp [splitTextGo] at hc
  | succ fuel ih =>
    intro p c hc
    by_cases hp : p < text.length
    · rw [splitTextGo, if_pos hp] at hc
      cases hf : findU n text p with
      | some u =>
        rw [hf] at hc
        simp at hc
        rcases hc with hc | hc
        · subst hc
          exact chunk_length_of_findU hf
        · exact ih _ c hc
      | none =>
        rw [hf] at hc
        exact ih _ c hc
    · rw [splitTextGo, if_neg hp] at hc
      simp at hc

/-- Claim C7 (amended): every chunk produced by the splitter, after
trimming, has length at most maxChars + 1: the backtracking regex ends
each match at the last terminator reachable within the window, so a
chunk never extends past the character limit by more than the one
terminator character. -/
theorem chunkLengthBound (n : Nat) (text : List Char) (c : List Char)
    (hc : c ∈ splitText n text) : c.length ≤ n + 1 :=
  splitTextGo_length_le text.length 0 c hc

theorem chunkLengthBoundWitness :
    "ab.".toList ∈ splitText 4 ("ab.cd.e".toList)
    ∧ ("ab.".toList).length ≤ 4 + 1 :=
  ⟨by decide, chunkLengthBound 4 ("ab.cd.e".toList) ("ab.".toList) (by decide)⟩

/-- Claim C7, counterexample: the splitting does not favor the first
terminator at or after the running length limit.  For the text ab.cd.e
with maxChars 4 the spec reading extends the first chunk through the
period at index 5, yielding ab.cd. of length 6; the source regex
instead backtracks to the period at index 2 and produces the chunks
ab. and cd.e, and ab.cd. is not among them. -/
theorem chunkFavorsCex :
    splitText 4 ("ab.cd.e".toList) = ["ab.".toList, "cd.e".toList]
    ∧ specFavoredFirstChunk 4 ("ab.cd.e".toList) = some ("ab.cd.".toList)
    ∧ "ab.cd.".toList ∉ splitText 4 ("ab.cd.e".toList) :=
  ⟨by decide, by decide, by decide⟩

lemma visibleNumbers_shift (drop : List Char → Bool) :
    ∀ (pieces : List (List Char)) (idy offset : Nat), offset ≤ idy →
      visibleNumbers drop pieces idy offset
        = (List.range ((pieces.filter (fun piece => !drop piece)).length)).map
            (fun k => k + (idy - offset)) := by
  intro pieces
  induction pieces with
  | nil => intro idy offset h; simp [visibleNumbers]
  | cons piece rest ih =>
    intro idy offset h
    by_cases hd : drop piece = true
    · rw [visibleNumbers, if_pos hd]
      rw [List.filter_cons]
      simp only [hd, Bool.not_true, Bool.false_eq_true, if_false]
      rw [ih (idy + 1) (offset + 1) (by omega)]
      have hsub : idy + 1 - (offset + 1) = idy - offset := by omega
      rw [hsub]
    · rw [visibleNumbers, if_neg hd]
      rw [ih (idy + 1) offset (by omega)]
      rw [List.filter_cons]
      have hd' : (!drop piece) = true := by
        simp only [Bool.not_eq_true] at hd
        simp [hd]
      rw [if_pos hd']
      rw [List.length_cons, List.range_succ_eq_map, List.map_cons, List.map_map]
      congr 1
      · omega
      · apply List.map_congr_left
        intro k hk
        simp only [Function.comp_apply, Nat.succ_eq_add_one]
        omega

/-- Claim C8: the visible sequence numbers that the split_post loop
assigns to the synthesized chunks form the gap free sequence 0..k-1,
where k is the number of pieces surviving the drop guard: a dropped
piece consumes a raw slot idy but increments the offset counter, so the
visible number idy - offset of each surviving piece equals the count of
surviving pieces before it.  The statement quantifies over the
processing function, so it covers the real process_text. -/
theorem gapFreeNumbering (procText : List Char → List Char) (n : Nat)
    (text : List Char) :
    visibleNumbers (dropPiece procText) (splitText n text) 0 0
      = List.range
          (((splitText n text).filter
              (fun piece => !dropPiece procText piece)).length) := by
  rw [visibleNumbers_shift (dropPiece procText) (splitText n text) 0 0 (le_refl 0)]
  simp

/-- Claim C9: the chunker never synthesizes an empty or whitespace-only
string, because the drop guard of split_post filters every processed
piece that is empty or whitespace, and on empty input the chunker
returns the empty sequence (the regex scan produces no match, since
every match consumes at least the one terminator character). -/
theorem chunkerValidity (procText : List Char → List Char) (n : Nat)
    (text : List Char) :
    (∀ s ∈ synthesizedChunks procText n text, s ≠ [] ∧ pyIsSpace s = false)
    ∧ splitText n ([] : List Char) = [] := by
  constructor
  · intro s hs
    unfold synthesizedChunks at hs
    rw [List.mem_filter] at hs
    obtain ⟨-, hpred⟩ := hs
    simp only [Bool.not_eq_true', Bool.or_eq_false_iff] at hpred
    refine ⟨?_, hpred.2⟩
    intro hnil
    subst hnil
    simp at hpred
  · rfl

theorem chunkerValidityWitness :
    "ab.".toList ∈ synthesizedChunks id 2 ("ab.".toList)
    ∧ ("ab.".toList ≠ [] ∧ pyIsSpace ("ab.".toList) = false) :=
  ⟨by decide, (chunkerValidity id 2 ("ab.".toList)).1 ("ab.".toList) (by decide)⟩

lemma directs_nil : directs [] = [] := rfl

lemma directs_cons (d : ℚ) (ds : List ℚ) :
    directs (d :: ds) = CommentSynth.direct (some d) :: directs ds := rfl

lemma processComment_direct (st : TTSState) (d : ℚ) :
    processComment st (CommentSynth.direct (some d))
      = ⟨st.length + d, d, st.racked_up_split_length⟩ := rfl

lemma runModel_title (B t : ℚ) (cs : List CommentSynth) (h : cs ≠ []) :
    runModel B (some t) none cs
      = ((runComments B ⟨t, t, 0⟩ cs 0).1,
          some (runComments B ⟨t, t, 0⟩ cs 0).2) := by
  rw [runModel]
  simp [call_tts, h]

lemma runComments_directs_evict (B : ℚ) :
    ∀ (m : Nat) (ds : List ℚ) (st : TTSState) (i : ℤ),
      m + 1 < ds.length →
      (∀ j, j < m → st.length + (ds.take (j + 1)).sum ≤ B) →
      B < st.length + (ds.take (m + 1)).sum →
      st.length ≤ B →
      (runComments B st (directs ds) i).1.length = st.length + (ds.take m).sum
      ∧ (runComments B st (directs ds) i).2 = i + m := by
  intro m
  induction m with
  | zero =>
    intro ds st i hlen h1 h2 h3
    cases ds with
    | nil => simp at hlen
    | cons d0 rest =>
      cases rest with
      | nil => simp at hlen
      | cons d1 rest =>
        rw [List.take_succ_cons, List.take_zero, List.sum_cons, List.sum_nil] at h2
        rw [directs_cons, runComments, if_neg (not_lt.mpr h3), processComment_direct]
        rw [directs_cons, runComments]
        rw [if_pos (show B < (⟨st.length + d0, d0,
              st.racked_up_split_length⟩ : TTSState).length by simpa using h2)]
        constructor
        · simp
        · simp
  | succ m ih =>
    intro ds st i hlen h1 h2 h3
    cases ds with
    | nil => simp at hlen
    | cons d0 rest =>
      rw [directs_cons, runComments, if_neg (not_lt.mpr h3), processComment_direct]
      have h3' : st.length + d0 ≤ B := by
        have := h1 0 (Nat.succ_pos m)
        simpa using this
      have hlen' : m + 1 < rest.length := by
        simp at hlen
        omega
      have h1' : ∀ j, j < m → st.length + d0 + (rest.take (j + 1)).sum ≤ B := by
        intro j hj
        have := h1 (j + 1) (by omega)
        rw [List.take_succ_cons, List.sum_cons] at this
        linarith
      have h2' : B < st.length + d0 + (rest.take (m + 1)).sum := by
        rw [List.take_succ_cons, List.sum_cons] at h2
        linarith
      obtain ⟨hl, hi⟩ :=
        ih rest ⟨st.length + d0, d0, st.racked_up_split_length⟩ (i + 1)
          hlen' h1' h2' h3'
      constructor
      · rw [hl, List.take_succ_cons, List.sum_cons]
        show st.length + d0 + (rest.take m).sum = _
        ring
      · rw [hi]
        push_cast
        ring

lemma runComments_directs_total (B : ℚ) :
    ∀ (ds : List ℚ) (st : TTSState) (i : ℤ), st.length ≤ B →
      ∃ k, k ≤ ds.length ∧
        (runComments B st (directs ds) i).1.length
            = st.length + (ds.take k).sum ∧
        (((runComments B st (directs ds) i).2 = i + k ∧ k + 1 < ds.length) ∨
          ((runComments B st (directs ds) i).2 = i + ds.length - 1
            ∧ k = ds.length)) := by
  intro ds
  induction ds with
  | nil =>
    intro st i h
    refine ⟨0, by simp, ?_, Or.inr ⟨?_, rfl⟩⟩
    · simp [directs_nil, runComments]
    · simp [directs_nil, runComments]
  | cons d0 rest ih =>
    intro st i h
    rw [directs_cons, runComments, if_neg (not_lt.mpr h), processComment_direct]
    by_cases h1 : st.length + d0 ≤ B
    · obtain ⟨k, hk, hl, hd⟩ :=
        ih ⟨st.length + d0, d0, st.racked_up_split_length⟩ (i + 1) h1
      refine ⟨k + 1, by simp; omega, ?_, ?_⟩
      · rw [hl, List.take_succ_cons, List.sum_cons]
        show st.length + d0 + (rest.take k).sum = _
        ring
      · rcases hd with ⟨he, hlt⟩ | ⟨he, hk'⟩
        · left
          refine ⟨?_, by simp only [List.length_cons]; omega⟩
          rw [he]
          push_cast
          ring
        · right
          refine ⟨?_, by simp only [List.length_cons]; omega⟩
          rw [he]
          simp only [List.length_cons]
          push_cast
          ring
    · push_neg at h1
      cases rest with
      | nil =>
        rw [directs_nil, runComments]
        refine ⟨1, by simp, ?_, Or.inr ⟨?_, by simp⟩⟩
        · show (⟨st.length + d0, d0,
              st.racked_up_split_length⟩ : TTSState).length = _
          simp
        · simp
      | cons d1 rs =>
        rw [directs_cons, runComments,
          if_pos (show B < (⟨st.length + d0, d0,
            st.racked_up_split_length⟩ : TTSState).length from h1)]
        refine ⟨0, by simp, ?_,
          Or.inl ⟨?_, by simp only [List.length_cons]; omega⟩⟩
        · show st.length + d0 - d0 = _
          simp
        · simp

/-- Claim C2 (amended): when every synthesis succeeds, every comment is
synthesized directly, and the running total of the title plus accepted
comments first exceeds the budget B at a comment index m that is not
the final comment of the thread, the run returns index m and its total
equals the title duration plus the durations of comments 0 through
m - 1, comment m having been rolled back.  The restriction that m is
not the final comment is forced by the counterexample: the budget check
runs only at the top of the next iteration, so an excess at the final
comment is never detected.  The restriction to direct comments matches
the formulation of the claim in terms of one duration per comment; for
a chunked comment the subtracted amount is its final chunk only, the
divergence recorded under C6. -/
theorem runBudgetEviction (B t : ℚ) (ds : List ℚ) (m : Nat)
    (hm : m + 1 < ds.length)
    (h1 : ∀ j, j < m → t + (ds.take (j + 1)).sum ≤ B)
    (h2 : B < t + (ds.take (m + 1)).sum)
    (h3 : t ≤ B) :
    (runModel B (some t) none (directs ds)).1.length = t + (ds.take m).sum
    ∧ (runModel B (some t) none (directs ds)).2 = some (m : ℤ) := by
  have hne : directs ds ≠ [] := by
    cases ds with
    | nil => simp at hm
    | cons d rest => simp [directs]
  rw [runModel_title B t (directs ds) hne]
  obtain ⟨hl, hi⟩ := runComments_directs_evict B m ds ⟨t, t, 0⟩ 0 hm h1 h2 h3
  refine ⟨hl, ?_⟩
  rw [hi]
  simp

theorem runBudgetEvictionWitness :
    ((1 : Nat) + 1 < ([3, 3, 3] : List ℚ).length
      ∧ (∀ j, j < 1 → (2 : ℚ) + (([3, 3, 3] : List ℚ).take (j + 1)).sum ≤ 7)
      ∧ (7 : ℚ) < 2 + (([3, 3, 3] : List ℚ).take (1 + 1)).sum
      ∧ (2 : ℚ) ≤ 7)
    ∧ ((runModel 7 (some 2) none (directs [3, 3, 3])).1.length
          = 2 + (([3, 3, 3] : List ℚ).take 1).sum
      ∧ (runModel 7 (some 2) none (directs [3, 3, 3])).2 = some ((1 : Nat) : ℤ)) := by
  refine ⟨⟨by norm_num, ?_, by norm_num, by norm_num⟩, ?_⟩
  · intro j hj
    interval_cases j
    norm_num
  · exact runBudgetEviction 7 2 [3, 3, 3] 1 (by norm_num)
      (fun j hj => by interval_cases j; norm_num) (by norm_num) (by norm_num)

/-- Claim C5 (amended): for a run whose title fits the budget and whose
comments all synthesize directly and successfully, the returned total
equals the title duration plus the durations of exactly the kept
comments, which form a prefix of the comment list: on budget eviction
the returned index equals the number k of kept comments, so the kept
comments are 0 through index - 1 and the returned index is an exclusive
bound, while on normal exhaustion every comment is kept and the
returned index is the index of the final comment.  The inclusive
reading of the claim, total = title plus comments 0 through the
returned index, fails on the eviction path as the counterexample
shows. -/
theorem runManifestTotal (B t : ℚ) (ds : List ℚ) (hds : ds ≠ [])
    (h3 : t ≤ B) :
    ∃ k, k ≤ ds.length ∧
      (runModel B (some t) none (directs ds)).1.length
          = t + (ds.take k).sum ∧
      (((runModel B (some t) none (directs ds)).2 = some (k : ℤ)
          ∧ k + 1 < ds.length) ∨
        ((runModel B (some t) none (directs ds)).2
            = some ((ds.length : ℤ) - 1) ∧ k = ds.length)) := by
  have hne : directs ds ≠ [] := by
    cases ds with
    | nil => exact absurd rfl hds
    | cons d rest => simp [directs]
  rw [runModel_title B t (directs ds) hne]
  obtain ⟨k, hk, hl, hd⟩ := runComments_directs_total B ds ⟨t, t, 0⟩ 0 h3
  refine ⟨k, hk, hl, ?_⟩
  rcases hd with ⟨he, hlt⟩ | ⟨he, hk'⟩
  · left
    exact ⟨by rw [he]; simp, hlt⟩
  · right
    exact ⟨by rw [he]; simp, hk'⟩

theorem runManifestTotalWitness :
    (([4, 4] : List ℚ) ≠ [] ∧ (1 : ℚ) ≤ 4)
    ∧ (∃ k, k ≤ ([4, 4] : List ℚ).length
        ∧ (runModel 4 (some 1) none (directs [4, 4])).1.length
            = 1 + (([4, 4] : List ℚ).take k).sum
        ∧ (((runModel 4 (some 1) none (directs [4, 4])).2 = some (k : ℤ)
              ∧ k + 1 < ([4, 4] : List ℚ).length)
            ∨ ((runModel 4 (some 1) none (directs [4, 4])).2
                  = some ((([4, 4] : List ℚ).length : ℤ) - 1)
              ∧ k = ([4, 4] : List ℚ).length))) :=
  ⟨⟨by simp, by norm_num⟩, runManifestTotal 4 1 [4, 4] (by simp) (by norm_num)⟩
